import Mathlib

/-!
Verification of the array aliasing model taught by the
`ECCO_v4_Operating_on_Numpy_Arrays` tutorial notebook.

The repository contains no implementation of the `ArrayHandle`
abstraction itself — only the notebook that demonstrates its behaviour
on numpy arrays.  The definitions below are therefore modelled from the
specification (`spec.md`, sections 3, 4 and 7): a heap of mutable
buffers, lightweight handles carrying a view descriptor, and the
operations `bind`, `slice`, `elementwiseOp`, `shallowCopy`, `deepCopy`,
`mutateInPlace` and the aliasing query `sharesBuffer`.
-/

namespace ArrayModel

/-- Modelled from the spec: a Buffer is "an ordered sequence of numeric
elements, a shape (dimensions)".  Elements are integers; the data list
stores the elements in row-major order. -/
structure Buffer where
  shape : List Nat
  data  : List Int
deriving Repr, DecidableEq

/-- Modelled from the spec: a Handle is "a lightweight reference
associating a logical variable name to a Buffer plus an optional view
descriptor (offset + shape + strides)".  `buf` is the index of the
Buffer in the heap; `view` gives, per dimension, the pair
(start offset, extent) into the Buffer. -/
structure Handle where
  buf  : Nat
  view : List (Nat × Nat)
deriving Repr, DecidableEq

/-- The heap of allocated Buffers; a Handle's `buf` field indexes it. -/
abbrev Heap := List Buffer

/-- Modelled from the spec (section 7): the error kinds `IndexOutOfRange`
and `ShapeMismatch`. -/
inductive ArrErr where
  | IndexOutOfRange
  | ShapeMismatch
deriving Repr, DecidableEq

/-- The shape of a view: its per-dimension extents. -/
def viewShape (v : List (Nat × Nat)) : List Nat :=
  v.map Prod.snd

/-- The full (unrestricted) view of a buffer of the given shape. -/
def fullView (s : List Nat) : List (Nat × Nat) :=
  s.map (fun d => (0, d))

/-- Row-major flattening of a multi-index against a shape. -/
def flattenIx : List Nat → List Nat → Nat
  | [], _ => 0
  | _ :: _, [] => 0
  | _ :: s, i :: ix => i * s.prod + flattenIx s ix

/-- Row-major unflattening of a flat index into a multi-index. -/
def unflattenIx : List Nat → Nat → List Nat
  | [], _ => []
  | _ :: s, n => n / s.prod :: unflattenIx s (n % s.prod)

/-- The buffer position addressed by the `n`-th element (row-major) of a
view `v` into a buffer of shape `bs`. -/
def viewIxToBufPos (bs : List Nat) (v : List (Nat × Nat)) (n : Nat) : Nat :=
  flattenIx bs (List.zipWith (fun (r : Nat × Nat) i => r.1 + i) v
    (unflattenIx (viewShape v) n))

/-- The elements of view `v` of buffer `b`, in row-major order. -/
def viewData (b : Buffer) (v : List (Nat × Nat)) : List Int :=
  (List.range (viewShape v).prod).map
    (fun n => b.data.getD (viewIxToBufPos b.shape v n) 0)

/-- The default buffer used for out-of-heap lookups. -/
def emptyBuf : Buffer := ⟨[], []⟩

/-- Reading the elements seen through a handle. -/
def readView (heap : Heap) (h : Handle) : Option (List Int) :=
  (heap[h.buf]?).map (fun b => viewData b h.view)

/-- Modelled from the spec: the aliasing-identity query
`sharesBuffer(a, b) -> bool` — "do these two handles currently reference
the same Buffer?". -/
def sharesBuffer (a b : Handle) : Bool :=
  a.buf == b.buf

/-- Modelled from the spec: `bind(source)` "produces a new handle
referencing the same Buffer and same view as `source`.  No error
conditions; no new allocation." -/
def bind (source : Handle) : Handle :=
  ⟨source.buf, source.view⟩

/-- Bounds check for `slice`: the ranges must cover each dimension of
the source view and stay inside its extents. -/
def sliceOk (v : List (Nat × Nat)) (ranges : List (Nat × Nat)) : Bool :=
  ranges.length == v.length &&
  (List.zip ranges v).all (fun p => p.1.1 ≤ p.1.2 && p.1.2 ≤ p.2.2)

/-- Modelled from the spec: `slice(source, ranges)` "produces a new
handle whose view is restricted to the given ranges within `source`'s
Buffer … it is a *view*, not a copy.  Fails with `IndexOutOfRange` when
any range exceeds the source shape on that dimension."  The heap is
returned unchanged in every case. -/
def slice (heap : Heap) (source : Handle) (ranges : List (Nat × Nat)) :
    Heap × Except ArrErr Handle :=
  if sliceOk source.view ranges then
    (heap, .ok ⟨source.buf,
      (List.zip source.view ranges).map
        (fun p => (p.1.1 + p.2.1, p.2.2 - p.2.1))⟩)
  else
    (heap, .error .IndexOutOfRange)

/-- The element-wise operations demonstrated in the notebook. -/
inductive Op where
  | add
  | multiply
deriving Repr, DecidableEq

def applyOp : Op → Int → Int → Int
  | .add, x, y => x + y
  | .multiply, x, y => x * y

/-- The right operand of `elementwiseOp`: another handle or a scalar. -/
inductive Operand where
  | arr (h : Handle)
  | scalar (x : Int)
deriving Repr, DecidableEq

/-- Broadcast compatibility of two shapes, checked on reversed
(trailing-dimension-first) shapes: dimensions agree or one of them is 1,
missing leading dimensions are compatible. -/
def broadcastCompatRev : List Nat → List Nat → Bool
  | [], _ => true
  | _, [] => true
  | p :: s, q :: t => (p == q || p == 1 || q == 1) && broadcastCompatRev s t

def broadcastCompat (s t : List Nat) : Bool :=
  broadcastCompatRev s.reverse t.reverse

/-- The broadcast result shape, on reversed shapes. -/
def broadcastShapeRev : List Nat → List Nat → List Nat
  | [], t => t
  | s, [] => s
  | p :: s, q :: t => max p q :: broadcastShapeRev s t

def broadcastShape (s t : List Nat) : List Nat :=
  (broadcastShapeRev s.reverse t.reverse).reverse

/-- Reading an operand of shape `ts` (row-major data `data`) at a result
multi-index `ix`, following broadcasting: the operand's shape is aligned
to the trailing dimensions of `ix`, and dimensions of extent 1 are
repeated. -/
def broadcastGet (ts : List Nat) (data : List Int) (ix : List Nat) : Int :=
  let tail := ix.drop (ix.length - ts.length)
  data.getD
    (flattenIx ts (List.zipWith (fun td i => if td == 1 then 0 else i) ts tail))
    0

/-- Modelled from the spec: `elementwiseOp(op, left, right)` "computes a
new Buffer holding the per-element result; allocates fresh storage
unconditionally, even when the operation is semantically an identity
(e.g., adding zero) … Fails with `ShapeMismatch` when operand shapes are
not broadcast-compatible."  The fresh Buffer is appended to the heap and
the result handle views it in full. -/
def elementwiseOp (op : Op) (heap : Heap) (left : Handle) (right : Operand) :
    Heap × Except ArrErr Handle :=
  let lb := heap.getD left.buf emptyBuf
  let ls := viewShape left.view
  let ld := viewData lb left.view
  match right with
  | .scalar x =>
      (heap ++ [⟨ls, ld.map (fun e => applyOp op e x)⟩],
       .ok ⟨heap.length, fullView ls⟩)
  | .arr rh =>
      let rb := heap.getD rh.buf emptyBuf
      let rs := viewShape rh.view
      let rd := viewData rb rh.view
      if broadcastCompat ls rs then
        let os := broadcastShape ls rs
        let od := (List.range os.prod).map (fun n =>
          let ix := unflattenIx os n
          applyOp op (broadcastGet ls ld ix) (broadcastGet rs rd ix))
        (heap ++ [⟨os, od⟩], .ok ⟨heap.length, fullView os⟩)
      else
        (heap, .error .ShapeMismatch)

/-- Modelled from the spec: `shallowCopy(source)` "allocates a new
Buffer, copies element values from source's current view, returns a
handle to the new Buffer with no view restriction". -/
def shallowCopy (heap : Heap) (source : Handle) : Heap × Handle :=
  let b := heap.getD source.buf emptyBuf
  let s := viewShape source.view
  (heap ++ [⟨s, viewData b source.view⟩], ⟨heap.length, fullView s⟩)

/-- Modelled from the spec: a CompositeStructure is "a named collection
of Handles plus associated coordinate/metadata Handles". -/
abbrev Composite := List (String × Handle)

/-- Modelled from the spec: `deepCopy(source)` "recursively duplicates
every Buffer reachable from `source`, including nested
coordinate/metadata buffers in composite structures".  Every handle of
the result points to a freshly appended duplicate of its Buffer. -/
def deepCopy (heap : Heap) (A : Composite) : Heap × Composite :=
  match A with
  | [] => (heap, [])
  | (nm, h) :: rest =>
      let b := heap.getD h.buf emptyBuf
      let res := deepCopy (heap ++ [⟨b.shape, b.data⟩]) rest
      (res.1, (nm, ⟨heap.length, h.view⟩) :: res.2)

/-- Modelled from the spec: a shallow copy of a composite structure
duplicates one level of structure only; "if `source` itself contains
nested handles (composite), those nested handles are still shared with
the copy (shallow only)". -/
def shallowCopyComposite (A : Composite) : Composite :=
  A.map (fun p => (p.1, p.2))

/-- The values written by `mutateInPlace`: a scalar broadcast over the
target view (`b[:] = 10`), or an array of a given shape. -/
inductive Values where
  | scalar (x : Int)
  | arr (shape : List Nat) (data : List Int)
deriving Repr, DecidableEq

/-- The value written to the `n`-th (row-major) element of the target
view. -/
def valueAt : Values → Nat → Int
  | .scalar x, _ => x
  | .arr _ d, n => d.getD n 0

/-- Shape check for `mutateInPlace`: a scalar always matches; an array
must match the target view's shape exactly. -/
def valuesShapeOk (target : List Nat) : Values → Bool
  | .scalar _ => true
  | .arr s _ => s == target

/-- The buffer positions covered by view `v` of a buffer of shape `bs`,
in row-major view order. -/
def writePositions (bs : List Nat) (v : List (Nat × Nat)) : List Nat :=
  (List.range (viewShape v).prod).map (viewIxToBufPos bs v)

/-- Overwriting the elements of view `v` inside row-major data `data`. -/
def writeView (bs : List Nat) (v : List (Nat × Nat)) (vals : Values)
    (data : List Int) : List Int :=
  (List.range (viewShape v).prod).foldl
    (fun acc n => acc.set (viewIxToBufPos bs v n) (valueAt vals n)) data

/-- Modelled from the spec: `mutateInPlace(target, values)` "overwrites
the elements within `target`'s current view.  Side effect: visible
through every handle aliasing the same Buffer region.  Fails with
`ShapeMismatch` if `values`'s shape does not match the target view's
shape."  The heap is unchanged on failure. -/
def mutateInPlace (heap : Heap) (target : Handle) (values : Values) :
    Heap × Except ArrErr Unit :=
  if valuesShapeOk (viewShape target.view) values then
    let b := heap.getD target.buf emptyBuf
    (heap.set target.buf ⟨b.shape, writeView b.shape target.view values b.data⟩,
     .ok ())
  else
    (heap, .error .ShapeMismatch)

/-- A view is in bounds for a buffer shape when it has the buffer's rank
and every per-dimension range stays inside the buffer's extent on that
dimension. -/
def viewInBounds (bs : List Nat) (v : List (Nat × Nat)) : Bool :=
  v.length == bs.length &&
  (List.zip v bs).all (fun p => decide (p.1.1 + p.1.2 ≤ p.2))

/-- A handle is valid in a heap when its buffer exists and its view is
in bounds for that buffer's shape. -/
def validHandle (heap : Heap) (h : Handle) : Prop :=
  h.buf < heap.length ∧
  viewInBounds ((heap.getD h.buf emptyBuf).shape) h.view = true

/-- The multi-index into the buffer addressed by the `n`-th element of a
view. -/
def viewMultiIx (v : List (Nat × Nat)) (n : Nat) : List Nat :=
  List.zipWith (fun (r : Nat × Nat) i => r.1 + i) v (unflattenIx (viewShape v) n)

/-- The notebook's simple demonstration array `a = np.array([1,2,3,4,5])`:
a one-buffer heap and a full-view handle on it. -/
def demoHeap : Heap := [⟨[5], [1, 2, 3, 4, 5]⟩]

def demoA : Handle := ⟨0, [(0, 5)]⟩

/-- A 4×4 buffer standing for one tile of the notebook's SSH field, with
a full-view handle on it. -/
def gridHeap : Heap :=
  [⟨[4, 4], [0, 1, 2, 3, 4, 5, 6, 7, 8, 9, 10, 11, 12, 13, 14, 15]⟩]

def gridA : Handle := ⟨0, [(0, 4), (0, 4)]⟩

def compHeap : Heap := [⟨[2, 2], [1, 2, 3, 4]⟩, ⟨[2], [7, 8]⟩]

def compA : Composite :=
  [("SSH", ⟨0, [(0, 2), (0, 2)]⟩), ("rA", ⟨1, [(0, 2)]⟩)]

end ArrayModel

namespace ArrayModel

theorem unflattenIx_length (s : List Nat) (n : Nat) :
    (unflattenIx s n).length = s.length := by
  induction s generalizing n with
  | nil => rfl
  | cons d s ih => simp [unflattenIx, ih]

theorem flattenIx_unflattenIx (s : List Nat) (n : Nat) (hn : n < s.prod) :
    flattenIx s (unflattenIx s n) = n := by
  induction s generalizing n with
  | nil =>
    rw [List.prod_nil] at hn
    interval_cases n
    rfl
  | cons d s ih =>
    have hpos : 0 < s.prod := by
      rcases Nat.eq_zero_or_pos s.prod with h | h
      · rw [List.prod_cons, h, Nat.mul_zero] at hn; omega
      · exact h
    have hmod : n % s.prod < s.prod := Nat.mod_lt _ hpos
    simp only [unflattenIx, flattenIx]
    rw [ih _ hmod, Nat.mul_comm]
    exact Nat.div_add_mod n s.prod

theorem map_getD_range (l : List Int) (d : Int) :
    (List.range l.length).map (fun n => l.getD n d) = l := by
  induction l with
  | nil => rfl
  | cons a l ih =>
    have hstep :
        List.map ((fun n => (a :: l).getD n d) ∘ Nat.succ) (List.range l.length)
          = List.map (fun n => l.getD n d) (List.range l.length) := by
      apply List.map_congr_left
      intro n hn
      simp [Function.comp, List.getD_cons_succ]
    rw [List.length_cons, List.range_succ_eq_map, List.map_cons, List.map_map,
      List.getD_cons_zero, hstep, ih]

theorem viewShape_fullView (s : List Nat) : viewShape (fullView s) = s := by
  simp [viewShape, fullView, List.map_map, Function.comp]

theorem zipWith_fullView (s : List Nat) (ix : List Nat) :
    List.zipWith (fun (r : Nat × Nat) i => r.1 + i) (fullView s) ix =
      ix.take s.length := by
  induction s generalizing ix with
  | nil => simp [fullView]
  | cons d s ih =>
    cases ix with
    | nil => simp [fullView]
    | cons i ix =>
      rw [show fullView (d :: s) = (0, d) :: fullView s from rfl,
        List.zipWith_cons_cons, List.length_cons, List.take_succ_cons,
        Nat.zero_add, ih]

theorem viewIxToBufPos_fullView (s : List Nat) (n : Nat) :
    viewIxToBufPos s (fullView s) n = flattenIx s (unflattenIx s n) := by
  unfold viewIxToBufPos
  rw [viewShape_fullView, zipWith_fullView]
  congr 1
  rw [List.take_of_length_le]
  rw [unflattenIx_length]

theorem viewData_fullView (s : List Nat) (data : List Int)
    (hl : data.length = s.prod) :
    viewData ⟨s, data⟩ (fullView s) = data := by
  unfold viewData
  rw [viewShape_fullView]
  have hcong : ∀ n ∈ List.range s.prod,
      data.getD (viewIxToBufPos s (fullView s) n) 0 = data.getD n 0 := by
    intro n hn
    rw [viewIxToBufPos_fullView, flattenIx_unflattenIx s n (List.mem_range.mp hn)]
  rw [List.map_congr_left hcong, ← hl, map_getD_range]

theorem viewData_length (b : Buffer) (v : List (Nat × Nat)) :
    (viewData b v).length = (viewShape v).prod := by
  simp [viewData]

theorem readView_set_ne (heap : Heap) (i : Nat) (b : Buffer) (h : Handle)
    (hne : i ≠ h.buf) :
    readView (heap.set i b) h = readView heap h := by
  unfold readView
  rw [List.getElem?_set_ne hne]

theorem readView_append (heap tl : Heap) (h : Handle)
    (hlt : h.buf < heap.length) :
    readView (heap ++ tl) h = readView heap h := by
  unfold readView
  rw [List.getElem?_append_left hlt]

end ArrayModel

namespace ArrayModel

theorem foldl_set_length (ns : List Nat) (f : Nat → Nat) (g : Nat → Int)
    (data : List Int) :
    (ns.foldl (fun acc n => acc.set (f n) (g n)) data).length = data.length := by
  induction ns generalizing data with
  | nil => rfl
  | cons m ns ih => rw [List.foldl_cons, ih, List.length_set]

theorem foldl_set_frame (ns : List Nat) (f : Nat → Nat) (g : Nat → Int)
    (data : List Int) (p : Nat) (hp : ∀ n ∈ ns, f n ≠ p) :
    (ns.foldl (fun acc n => acc.set (f n) (g n)) data)[p]? = data[p]? := by
  induction ns generalizing data with
  | nil => rfl
  | cons m ns ih =>
    rw [List.foldl_cons, ih _ (fun n hn => hp n (List.mem_cons_of_mem _ hn))]
    exact List.getElem?_set_ne (hp m (List.mem_cons_self _ _))

theorem foldl_set_const (ns : List Nat) (f : Nat → Nat) (s : Int)
    (data : List Int) (p : Nat) (hplen : p < data.length)
    (hp : p ∈ ns.map f ∨ data[p]? = some s) :
    (ns.foldl (fun acc n => acc.set (f n) s) data)[p]? = some s := by
  induction ns generalizing data with
  | nil =>
    rcases hp with h | h
    · simp at h
    · exact h
  | cons m ns ih =>
    rw [List.foldl_cons]
    apply ih
    · rw [List.length_set]; exact hplen
    · rcases hp with hmem | hval
      · rw [List.map_cons, List.mem_cons] at hmem
        rcases hmem with heq | hmem
        · right
          rw [heq]
          exact List.getElem?_set_self (heq ▸ hplen)
        · left; exact hmem
      · right
        by_cases hfm : f m = p
        · rw [← hfm] at hplen ⊢
          exact List.getElem?_set_self hplen
        · rw [List.getElem?_set_ne hfm]
          exact hval

theorem writeView_length (bs : List Nat) (v : List (Nat × Nat)) (vals : Values)
    (data : List Int) : (writeView bs v vals data).length = data.length :=
  foldl_set_length _ _ _ _

theorem writeView_frame (bs : List Nat) (v : List (Nat × Nat)) (vals : Values)
    (data : List Int) (p : Nat) (hp : p ∉ writePositions bs v) :
    (writeView bs v vals data)[p]? = data[p]? := by
  apply foldl_set_frame
  intro n hn hcontra
  exact hp (hcontra ▸ List.mem_map_of_mem _ hn)

theorem writeView_scalar_mem (bs : List Nat) (v : List (Nat × Nat)) (s : Int)
    (data : List Int) (p : Nat) (hplen : p < data.length)
    (hp : p ∈ writePositions bs v) :
    (writeView bs v (.scalar s) data)[p]? = some s := by
  exact foldl_set_const _ _ _ _ _ hplen (Or.inl hp)

theorem viewData_getElem (b : Buffer) (v : List (Nat × Nat)) (n : Nat)
    (hn : n < (viewShape v).prod) :
    (viewData b v)[n]? = some (b.data.getD (viewIxToBufPos b.shape v n) 0) := by
  unfold viewData
  rw [List.getElem?_map, List.getElem?_range hn]
  rfl

end ArrayModel

namespace ArrayModel

theorem viewIxToBufPos_eq (bs : List Nat) (v : List (Nat × Nat)) (n : Nat) :
    viewIxToBufPos bs v n = flattenIx bs (viewMultiIx v n) := rfl

theorem unflattenIx_forall2 (s : List Nat) (n : Nat) (hn : n < s.prod) :
    List.Forall₂ (· < ·) (unflattenIx s n) s := by
  induction s generalizing n with
  | nil => exact List.Forall₂.nil
  | cons d s ih =>
    have hpos : 0 < s.prod := by
      rcases Nat.eq_zero_or_pos s.prod with h | h
      · rw [List.prod_cons, h, Nat.mul_zero] at hn; omega
      · exact h
    refine List.Forall₂.cons ?_ (ih _ (Nat.mod_lt _ hpos))
    rw [Nat.div_lt_iff_lt_mul hpos]
    rw [List.prod_cons] at hn
    omega

theorem flattenIx_lt (s : List Nat) (ix : List Nat)
    (hf : List.Forall₂ (· < ·) ix s) : flattenIx s ix < s.prod := by
  induction hf with
  | nil => simp [flattenIx]
  | @cons i d ix s hid htl ih =>
    rw [List.prod_cons]
    have hpos : 0 < s.prod := Nat.pos_of_ne_zero (by intro h; rw [h] at ih; omega)
    calc flattenIx (d :: s) (i :: ix) = i * s.prod + flattenIx s ix := rfl
      _ < i * s.prod + s.prod := by omega
      _ = (i + 1) * s.prod := by ring
      _ ≤ d * s.prod := Nat.mul_le_mul_right _ hid

theorem flattenIx_inj (s : List Nat) (ix jx : List Nat)
    (hi : List.Forall₂ (· < ·) ix s) (hj : List.Forall₂ (· < ·) jx s)
    (heq : flattenIx s ix = flattenIx s jx) : ix = jx := by
  induction s generalizing ix jx with
  | nil =>
    cases hi
    cases hj
    rfl
  | cons d s ih =>
    cases hi with
    | cons hid hitl =>
      cases hj with
      | cons hjd hjtl =>
        rename_i i ix j jx
        have hilt : flattenIx s ix < s.prod := flattenIx_lt s ix hitl
        have hjlt : flattenIx s jx < s.prod := flattenIx_lt s jx hjtl
        have hstep : i * s.prod + flattenIx s ix = j * s.prod + flattenIx s jx := heq
        have hij : i = j := by
          rcases Nat.lt_trichotomy i j with h | h | h
          · exfalso; have : (i + 1) * s.prod ≤ j * s.prod :=
              Nat.mul_le_mul_right _ h
            nlinarith
          · exact h
          · exfalso; have : (j + 1) * s.prod ≤ i * s.prod :=
              Nat.mul_le_mul_right _ h
            nlinarith
        subst hij
        have : flattenIx s ix = flattenIx s jx := by omega
        rw [ih ix jx hitl hjtl this]

theorem zipWith_add_cancel (v : List (Nat × Nat)) (ix jx : List Nat)
    (hix : ix.length = v.length) (hjx : jx.length = v.length)
    (heq : List.zipWith (fun (r : Nat × Nat) i => r.1 + i) v ix =
           List.zipWith (fun (r : Nat × Nat) i => r.1 + i) v jx) : ix = jx := by
  induction v generalizing ix jx with
  | nil =>
    cases ix
    · cases jx
      · rfl
      · simp at hjx
    · simp at hix
  | cons r v ih =>
    cases ix with
    | nil => simp at hix
    | cons i ix =>
      cases jx with
      | nil => simp at hjx
      | cons j jx =>
        rw [List.zipWith_cons_cons, List.zipWith_cons_cons] at heq
        have h1 : r.1 + i = r.1 + j := (List.cons.injEq _ _ _ _ ▸ heq).1
        have h2 := (List.cons.injEq _ _ _ _ ▸ heq).2
        simp only [List.length_cons] at hix hjx
        rw [ih ix jx (by omega) (by omega) h2]
        congr 1
        omega

theorem viewShape_cons (r : Nat × Nat) (v : List (Nat × Nat)) :
    viewShape (r :: v) = r.2 :: viewShape v := rfl

theorem viewInBounds_cons (d : Nat) (bs : List Nat) (r : Nat × Nat)
    (v : List (Nat × Nat)) :
    viewInBounds (d :: bs) (r :: v) = true ↔
      r.1 + r.2 ≤ d ∧ viewInBounds bs v = true := by
  unfold viewInBounds
  simp [List.zip_cons_cons, List.all_cons, Bool.and_eq_true, and_assoc]
  tauto

theorem viewMultiIx_forall2 (bs : List Nat) (v : List (Nat × Nat)) (n : Nat)
    (hb : viewInBounds bs v = true) (hn : n < (viewShape v).prod) :
    List.Forall₂ (· < ·) (viewMultiIx v n) bs := by
  induction v generalizing bs n with
  | nil =>
    have hlen : bs.length = 0 := by
      unfold viewInBounds at hb
      rw [Bool.and_eq_true] at hb
      exact (beq_iff_eq.mp hb.1).symm
    rw [List.length_eq_zero.mp hlen]
    exact List.Forall₂.nil
  | cons r v ih =>
    cases bs with
    | nil =>
      exfalso
      unfold viewInBounds at hb
      rw [Bool.and_eq_true] at hb
      have := beq_iff_eq.mp hb.1
      simp at this
    | cons d bs =>
      obtain ⟨hrd, htl⟩ := (viewInBounds_cons d bs r v).mp hb
      rw [viewShape_cons, List.prod_cons] at hn
      have hpos : 0 < (viewShape v).prod := by
        rcases Nat.eq_zero_or_pos (viewShape v).prod with h | h
        · rw [h, Nat.mul_zero] at hn; omega
        · exact h
      have hhead : r.1 + n / (viewShape v).prod < d := by
        have : n / (viewShape v).prod < r.2 := by
          rw [Nat.div_lt_iff_lt_mul hpos]; omega
        omega
      refine List.Forall₂.cons hhead ?_
      exact ih bs _ htl (Nat.mod_lt _ hpos)

theorem viewShape_length (v : List (Nat × Nat)) :
    (viewShape v).length = v.length := by
  simp [viewShape]

theorem viewIxToBufPos_inj (bs : List Nat) (v : List (Nat × Nat)) (n m : Nat)
    (hb : viewInBounds bs v = true)
    (hn : n < (viewShape v).prod) (hm : m < (viewShape v).prod)
    (heq : viewIxToBufPos bs v n = viewIxToBufPos bs v m) : n = m := by
  have h1 := viewMultiIx_forall2 bs v n hb hn
  have h2 := viewMultiIx_forall2 bs v m hb hm
  have hmx : viewMultiIx v n = viewMultiIx v m :=
    flattenIx_inj bs _ _ h1 h2 heq
  have hulen : ∀ k, (unflattenIx (viewShape v) k).length = v.length := by
    intro k
    rw [unflattenIx_length, viewShape_length]
  have hu : unflattenIx (viewShape v) n = unflattenIx (viewShape v) m :=
    zipWith_add_cancel v _ _ (hulen n) (hulen m) hmx
  calc n = flattenIx (viewShape v) (unflattenIx (viewShape v) n) :=
        (flattenIx_unflattenIx _ _ hn).symm
    _ = flattenIx (viewShape v) (unflattenIx (viewShape v) m) := by rw [hu]
    _ = m := flattenIx_unflattenIx _ _ hm

theorem foldl_set_last_write (ns : List Nat) (f : Nat → Nat) (g : Nat → Int)
    (data : List Int) (p n : Nat) (hplen : p < data.length)
    (hn : n ∈ ns) (hfp : f n = p) (hnd : ns.Nodup)
    (huniq : ∀ m ∈ ns, f m = p → m = n) :
    (ns.foldl (fun acc n => acc.set (f n) (g n)) data)[p]? = some (g n) := by
  induction ns generalizing data with
  | nil => simp at hn
  | cons m ns ih =>
    rw [List.foldl_cons]
    rw [List.nodup_cons] at hnd
    rcases List.mem_cons.mp hn with rfl | htl
    · have hnotl : ∀ k ∈ ns, f k ≠ p := by
        intro k hk hcontra
        have := huniq k (List.mem_cons_of_mem _ hk) hcontra
        exact hnd.1 (this ▸ hk)
      rw [foldl_set_frame ns f g _ p hnotl, ← hfp]
      exact List.getElem?_set_self (hfp ▸ hplen)
    · have hmne : f m ≠ p := by
        intro hcontra
        have := huniq m (List.mem_cons_self _ _) hcontra
        subst this
        exact hnd.1 htl
      apply ih _ _ htl hnd.2
      · intro k hk hkp
        exact huniq k (List.mem_cons_of_mem _ hk) hkp
      · rw [List.length_set]; exact hplen

theorem writeView_getElem (bs : List Nat) (v : List (Nat × Nat)) (vals : Values)
    (data : List Int) (n : Nat)
    (hb : viewInBounds bs v = true)
    (hn : n < (viewShape v).prod)
    (hplen : viewIxToBufPos bs v n < data.length) :
    (writeView bs v vals data)[viewIxToBufPos bs v n]? = some (valueAt vals n) := by
  unfold writeView
  apply foldl_set_last_write _ _ _ _ _ n hplen (List.mem_range.mpr hn) rfl
    (List.nodup_range _)
  intro m hm heq
  exact viewIxToBufPos_inj bs v m n hb (List.mem_range.mp hm) hn heq

theorem viewIxToBufPos_lt (bs : List Nat) (v : List (Nat × Nat)) (n : Nat)
    (hb : viewInBounds bs v = true) (hn : n < (viewShape v).prod) :
    viewIxToBufPos bs v n < bs.prod :=
  flattenIx_lt bs _ (viewMultiIx_forall2 bs v n hb hn)

theorem getElem?_eq_some_getD (heap : Heap) (i : Nat) (hi : i < heap.length) :
    heap[i]? = some (heap.getD i emptyBuf) := by
  rw [List.getD_eq_getElem?_getD, List.getElem?_eq_getElem hi]
  rfl

theorem getD_set_self (heap : Heap) (i : Nat) (nb : Buffer) (hi : i < heap.length) :
    (heap.set i nb).getD i emptyBuf = nb := by
  rw [List.getD_eq_getElem?_getD, List.getElem?_set_self hi]
  rfl

theorem getElem?_append_length (heap : Heap) (nb : Buffer) :
    (heap ++ [nb])[heap.length]? = some nb := by
  rw [List.getElem?_append_right (Nat.le_refl _), Nat.sub_self]
  rfl

theorem mutateInPlace_scalar_eq (heap : Heap) (t : Handle) (s : Int) :
    mutateInPlace heap t (.scalar s) =
      (heap.set t.buf ⟨(heap.getD t.buf emptyBuf).shape,
        writeView (heap.getD t.buf emptyBuf).shape t.view (.scalar s)
          (heap.getD t.buf emptyBuf).data⟩, .ok ()) := rfl

theorem mutateInPlace_ok_fst (heap : Heap) (t : Handle) (vals : Values)
    (hok : valuesShapeOk (viewShape t.view) vals = true) :
    mutateInPlace heap t vals =
      (heap.set t.buf ⟨(heap.getD t.buf emptyBuf).shape,
        writeView (heap.getD t.buf emptyBuf).shape t.view vals
          (heap.getD t.buf emptyBuf).data⟩, .ok ()) := by
  unfold mutateInPlace
  rw [if_pos hok]

theorem mutateInPlace_mismatch (heap : Heap) (t : Handle) (vals : Values)
    (hbad : valuesShapeOk (viewShape t.view) vals = false) :
    mutateInPlace heap t vals = (heap, .error .ShapeMismatch) := by
  unfold mutateInPlace
  rw [if_neg]
  rw [hbad]
  simp

theorem readView_mutate_ne (heap : Heap) (t h2 : Handle) (vals : Values)
    (hne : t.buf ≠ h2.buf) :
    readView (mutateInPlace heap t vals).1 h2 = readView heap h2 := by
  unfold mutateInPlace
  by_cases hok : valuesShapeOk (viewShape t.view) vals = true
  · rw [if_pos hok]
    exact readView_set_ne _ _ _ _ hne
  · rw [if_neg hok]

theorem mutate_scalar_observed (heap : Heap) (h1 h2 : Handle) (s : Int) (n : Nat)
    (hsh : h2.buf = h1.buf) (hbuf : h1.buf < heap.length)
    (hn : n < (viewShape h2.view).prod)
    (hmem : viewIxToBufPos (heap.getD h1.buf emptyBuf).shape h2.view n ∈
      writePositions (heap.getD h1.buf emptyBuf).shape h1.view)
    (hplen : viewIxToBufPos (heap.getD h1.buf emptyBuf).shape h2.view n <
      (heap.getD h1.buf emptyBuf).data.length) :
    ∃ l, readView (mutateInPlace heap h1 (.scalar s)).1 h2 = some l ∧
      l[n]? = some s := by
  rw [mutateInPlace_scalar_eq]
  set b := heap.getD h1.buf emptyBuf with hbdef
  set nd := writeView b.shape h1.view (.scalar s) b.data with hnddef
  refine ⟨viewData ⟨b.shape, nd⟩ h2.view, ?_, ?_⟩
  · unfold readView
    rw [hsh, List.getElem?_set_self hbuf]
    rfl
  · rw [viewData_getElem _ _ _ hn]
    have hval : nd[viewIxToBufPos b.shape h2.view n]? = some s :=
      writeView_scalar_mem b.shape h1.view s b.data _ hplen hmem
    show some (nd.getD (viewIxToBufPos b.shape h2.view n) 0) = some s
    rw [List.getD_eq_getElem?_getD, hval]
    rfl

theorem mutate_arr_visible (heap : Heap) (h1 h2 : Handle) (d : List Int)
    (hsh : h2.buf = h1.buf) (hview : h2.view = h1.view)
    (hbuf : h1.buf < heap.length)
    (hb : viewInBounds (heap.getD h1.buf emptyBuf).shape h1.view = true)
    (hdlen : d.length = (viewShape h1.view).prod)
    (hwf : (heap.getD h1.buf emptyBuf).data.length =
      (heap.getD h1.buf emptyBuf).shape.prod) :
    readView (mutateInPlace heap h1 (.arr (viewShape h1.view) d)).1 h2 = some d := by
  have hok : valuesShapeOk (viewShape h1.view)
      (.arr (viewShape h1.view) d) = true := by
    simp [valuesShapeOk]
  rw [mutateInPlace_ok_fst heap h1 _ hok]
  set b := heap.getD h1.buf emptyBuf with hbdef
  set nd := writeView b.shape h1.view (.arr (viewShape h1.view) d) b.data with hnddef
  unfold readView
  rw [hsh, List.getElem?_set_self hbuf]
  show some (viewData ⟨b.shape, nd⟩ h2.view) = some d
  congr 1
  rw [hview]
  apply List.ext_getElem?
  intro n
  by_cases hn : n < (viewShape h1.view).prod
  · rw [viewData_getElem _ _ _ hn]
    have hplt : viewIxToBufPos b.shape h1.view n < b.data.length := by
      rw [hwf]
      exact viewIxToBufPos_lt b.shape h1.view n hb hn
    have hw := writeView_getElem b.shape h1.view
      (.arr (viewShape h1.view) d) b.data n hb hn hplt
    have hdn : d[n]? = some (d.getD n 0) := by
      rw [List.getD_eq_getElem?_getD,
        List.getElem?_eq_getElem (by omega : n < d.length)]
      rfl
    rw [hdn]
    show some (nd.getD (viewIxToBufPos b.shape h1.view n) 0) = some (d.getD n 0)
    rw [List.getD_eq_getElem?_getD, hw]
    rfl
  · have hlen2 : (viewData ⟨b.shape, nd⟩ h1.view).length = (viewShape h1.view).prod :=
      viewData_length _ _
    rw [List.getElem?_eq_none (by omega), List.getElem?_eq_none (by omega)]

theorem slice_heap_unchanged (heap : Heap) (a : Handle) (r : List (Nat × Nat)) :
    (slice heap a r).1 = heap := by
  unfold slice
  split <;> rfl

theorem slice_shares (heap : Heap) (a : Handle) (r : List (Nat × Nat)) (b : Handle)
    (hok : (slice heap a r).2 = .ok b) : sharesBuffer a b = true := by
  unfold slice at hok
  split at hok
  · simp only [Except.ok.injEq] at hok
    rw [← hok]
    simp [sharesBuffer]
  · simp at hok

theorem slice_out_of_range (heap : Heap) (a : Handle) (r : List (Nat × Nat))
    (d : Nat) (hd : d < r.length) (hd2 : d < a.view.length)
    (hex : (a.view[d]).2 < (r[d]).2) :
    (slice heap a r).2 = .error .IndexOutOfRange := by
  have hfalse : ¬ (sliceOk a.view r = true) := by
    intro hok
    unfold sliceOk at hok
    rw [Bool.and_eq_true] at hok
    have hall := List.all_eq_true.mp hok.2
    have hdz : d < (List.zip r a.view).length := by
      rw [List.length_zip]
      omega
    have hmem := hall _ (List.getElem_mem hdz)
    rw [List.getElem_zip] at hmem
    simp only [Bool.and_eq_true, decide_eq_true_eq] at hmem
    omega
  unfold slice
  rw [if_neg hfalse]

theorem elementwiseOp_ok_buf (op : Op) (heap : Heap) (left : Handle)
    (right : Operand) (b : Handle)
    (hok : (elementwiseOp op heap left right).2 = .ok b) :
    b.buf = heap.length := by
  unfold elementwiseOp at hok
  cases right with
  | scalar x =>
    simp only [Except.ok.injEq] at hok
    rw [← hok]
  | arr rh =>
    dsimp only at hok
    split at hok
    · simp only [Except.ok.injEq] at hok
      rw [← hok]
    · simp at hok

theorem elementwiseOp_ok_heap (op : Op) (heap : Heap) (left : Handle)
    (right : Operand) (b : Handle)
    (hok : (elementwiseOp op heap left right).2 = .ok b) :
    ∃ nb, (elementwiseOp op heap left right).1 = heap ++ [nb] := by
  unfold elementwiseOp at hok ⊢
  cases right with
  | scalar x => exact ⟨_, rfl⟩
  | arr rh =>
    dsimp only at hok ⊢
    by_cases hc : broadcastCompat (viewShape left.view) (viewShape rh.view) = true
    · rw [if_pos hc]
      exact ⟨_, rfl⟩
    · rw [if_neg hc] at hok
      simp at hok

end ArrayModel

namespace ArrayModel

theorem elementwiseOp_mismatch (op : Op) (heap : Heap) (left : Handle)
    (rh : Handle)
    (hbad : broadcastCompat (viewShape left.view) (viewShape rh.view) = false) :
    elementwiseOp op heap left (.arr rh) = (heap, .error .ShapeMismatch) := by
  unfold elementwiseOp
  dsimp only
  rw [if_neg]
  rw [hbad]
  simp

theorem elementwiseOp_compat_ok (op : Op) (heap : Heap) (left : Handle)
    (rh : Handle)
    (hc : broadcastCompat (viewShape left.view) (viewShape rh.view) = true) :
    (elementwiseOp op heap left (.arr rh)).2 =
      .ok ⟨heap.length,
        fullView (broadcastShape (viewShape left.view) (viewShape rh.view))⟩ := by
  unfold elementwiseOp
  dsimp only
  rw [if_pos hc]

theorem shallowCopy_eq (heap : Heap) (source : Handle) :
    shallowCopy heap source =
      (heap ++ [⟨viewShape source.view,
          viewData (heap.getD source.buf emptyBuf) source.view⟩],
       ⟨heap.length, fullView (viewShape source.view)⟩) := rfl

theorem shallowCopy_not_shared (heap : Heap) (source : Handle)
    (hbuf : source.buf < heap.length) :
    sharesBuffer source (shallowCopy heap source).2 = false := by
  simp [sharesBuffer, shallowCopy]
  omega

theorem shallowCopy_contents (heap : Heap) (source : Handle)
    (hbuf : source.buf < heap.length) :
    readView (shallowCopy heap source).1 (shallowCopy heap source).2 =
      readView heap source := by
  unfold readView
  rw [shallowCopy_eq]
  dsimp only
  rw [getElem?_append_length, getElem?_eq_some_getD heap source.buf hbuf]
  show some (viewData ⟨viewShape source.view,
    viewData (heap.getD source.buf emptyBuf) source.view⟩
      (fullView (viewShape source.view))) = _
  congr 1
  exact viewData_fullView _ _ (viewData_length _ _)

theorem readView_scalar_result (op : Op) (heap : Heap) (a : Handle) (x : Int)
    (b : Handle) (hok : (elementwiseOp op heap a (.scalar x)).2 = .ok b) :
    readView (elementwiseOp op heap a (.scalar x)).1 b =
      some ((viewData (heap.getD a.buf emptyBuf) a.view).map
        (fun e => applyOp op e x)) := by
  have hb : b = ⟨heap.length, fullView (viewShape a.view)⟩ := by
    unfold elementwiseOp at hok
    simp only [Except.ok.injEq] at hok
    rw [← hok]
  subst hb
  unfold elementwiseOp readView
  dsimp only
  rw [getElem?_append_length]
  show some (viewData ⟨viewShape a.view,
    (viewData (heap.getD a.buf emptyBuf) a.view).map (fun e => applyOp op e x)⟩
      (fullView (viewShape a.view))) = _
  congr 1
  apply viewData_fullView
  rw [List.length_map, viewData_length]

end ArrayModel

namespace ArrayModel

theorem deepCopy_fresh (heap : Heap) (A : Composite) :
    ∀ p ∈ (deepCopy heap A).2, heap.length ≤ p.2.buf := by
  induction A generalizing heap with
  | nil =>
    intro p hp
    simp [deepCopy] at hp
  | cons q rest ih =>
    intro p hp
    obtain ⟨nm, h⟩ := q
    unfold deepCopy at hp
    dsimp only at hp
    rw [List.mem_cons] at hp
    rcases hp with rfl | hp
    · exact Nat.le_refl _
    · have := ih _ p hp
      rw [List.length_append, List.length_singleton] at this
      omega

theorem deepCopy_preserves (heap : Heap) (A : Composite) (i : Nat)
    (hi : i < heap.length) :
    (deepCopy heap A).1[i]? = heap[i]? := by
  induction A generalizing heap with
  | nil => rfl
  | cons q rest ih =>
    obtain ⟨nm, h⟩ := q
    unfold deepCopy
    dsimp only
    rw [ih _ (by rw [List.length_append, List.length_singleton]; omega)]
    exact List.getElem?_append_left hi

theorem readView_deepCopy (heap : Heap) (A : Composite) (p : Handle)
    (hp : p.buf < heap.length) :
    readView (deepCopy heap A).1 p = readView heap p := by
  unfold readView
  rw [deepCopy_preserves _ _ _ hp]

end ArrayModel

namespace ArrayModel

/-- C1: for every handle `b = bind a`, `sharesBuffer a b` is true and the two
handles alias one buffer: a mutation made through either handle is observed
through the other (concretely, with `a = [1,2,3,4,5]` and `b = bind a`,
`mutateInPlace (b[3]) 10` makes `a = [1,2,3,10,5]`); more generally every
handle on the same Buffer observes, at every view position landing in the
written region, the value written through any other handle. -/
theorem bind_aliasing (heap : Heap) (h1 h2 : Handle) (s : Int) (n : Nat)
    (hsh : sharesBuffer h1 h2 = true) (hbuf : h1.buf < heap.length)
    (hn : n < (viewShape h2.view).prod)
    (hmem : viewIxToBufPos (heap.getD h1.buf emptyBuf).shape h2.view n ∈
      writePositions (heap.getD h1.buf emptyBuf).shape h1.view)
    (hplen : viewIxToBufPos (heap.getD h1.buf emptyBuf).shape h2.view n <
      (heap.getD h1.buf emptyBuf).data.length) :
    (∀ a : Handle, sharesBuffer a (bind a) = true) ∧
    (∀ (H : Heap) (a : Handle) (vals : Values),
      mutateInPlace H (bind a) vals = mutateInPlace H a vals) ∧
    (∃ l, readView (mutateInPlace heap h1 (.scalar s)).1 h2 = some l ∧
      l[n]? = some s) ∧
    (slice demoHeap (bind demoA) [(3, 4)]).2 = .ok ⟨0, [(3, 1)]⟩ ∧
    readView (mutateInPlace demoHeap ⟨0, [(3, 1)]⟩ (.scalar 10)).1 demoA =
      some [1, 2, 3, 10, 5] := by
  refine ⟨?_, ?_, ?_, ?_, ?_⟩
  · intro a
    simp [sharesBuffer, bind]
  · intro H a vals
    rfl
  · apply mutate_scalar_observed heap h1 h2 s n ?_ hbuf hn hmem hplen
    simp [sharesBuffer] at hsh
    omega
  · rfl
  · rfl

/-- C2: for every in-range `b = slice a ranges`, `sharesBuffer a b` is true
(the result is a view, not a copy: the heap is unchanged and no buffer is
allocated), and mutating elements through `b` mutates the corresponding
region of `a`'s buffer (demonstrated on the 2×2 corner of the 4×4 grid). -/
theorem slice_view_aliasing (heap : Heap) (a : Handle) (r : List (Nat × Nat))
    (b : Handle) (hok : (slice heap a r).2 = .ok b) :
    sharesBuffer a b = true ∧
    (slice heap a r).1 = heap ∧
    (slice gridHeap gridA [(0, 2), (0, 2)]).2 = .ok ⟨0, [(0, 2), (0, 2)]⟩ ∧
    readView (mutateInPlace gridHeap ⟨0, [(0, 2), (0, 2)]⟩ (.scalar 10)).1
        gridA =
      some [10, 10, 2, 3, 10, 10, 6, 7, 8, 9, 10, 11, 12, 13, 14, 15] := by
  exact ⟨slice_shares heap a r b hok, slice_heap_unchanged heap a r, rfl, rfl⟩

end ArrayModel

namespace ArrayModel

/-- C3: every `b = elementwiseOp op a right` that succeeds — including the
identity case `a + 0` — allocates a fresh Buffer (the result handle points
past the old heap), `sharesBuffer a b` is false, and mutating `b` leaves
`a`'s contents unchanged (concretely `a=[1,2,3,4,5]`, `b = a + 0`,
`mutateInPlace (b[3]) 10` gives `a = [1,2,3,4,5]`, `b = [1,2,3,10,5]`). -/
theorem elementwiseOp_fresh_buffer (op : Op) (heap : Heap) (a : Handle)
    (right : Operand) (b : Handle) (hbuf : a.buf < heap.length)
    (hok : (elementwiseOp op heap a right).2 = .ok b) :
    sharesBuffer a b = false ∧
    b.buf = heap.length ∧
    (∀ vals : Values,
      readView (mutateInPlace (elementwiseOp op heap a right).1 b vals).1 a =
        readView heap a) ∧
    (elementwiseOp .add demoHeap demoA (.scalar 0)).2 = .ok ⟨1, [(0, 5)]⟩ ∧
    readView (mutateInPlace (elementwiseOp .add demoHeap demoA (.scalar 0)).1
        ⟨1, [(3, 1)]⟩ (.scalar 10)).1 demoA = some [1, 2, 3, 4, 5] ∧
    readView (mutateInPlace (elementwiseOp .add demoHeap demoA (.scalar 0)).1
        ⟨1, [(3, 1)]⟩ (.scalar 10)).1 ⟨1, [(0, 5)]⟩ =
      some [1, 2, 3, 10, 5] := by
  have hfresh := elementwiseOp_ok_buf op heap a right b hok
  refine ⟨?_, hfresh, ?_, rfl, rfl, rfl⟩
  · simp [sharesBuffer]
    omega
  · intro vals
    obtain ⟨nb, hheap⟩ := elementwiseOp_ok_heap op heap a right b hok
    rw [readView_mutate_ne _ _ _ _ (by omega), hheap,
      readView_append _ _ _ hbuf]

/-- C4: for every composite structure `B = deepCopy A` whose source handles
are all live in the heap, no Buffer reachable from `B` is shared with any
Buffer reachable from `A`, and mutating any nested element of `B` leaves
every element of `A` unchanged. -/
theorem deepCopy_independence (heap : Heap) (A : Composite)
    (hA : ∀ p ∈ A, p.2.buf < heap.length) :
    (∀ q ∈ (deepCopy heap A).2, ∀ p ∈ A, sharesBuffer p.2 q.2 = false) ∧
    (∀ q ∈ (deepCopy heap A).2, ∀ p ∈ A, ∀ vals : Values,
      readView (mutateInPlace (deepCopy heap A).1 q.2 vals).1 p.2 =
        readView heap p.2) := by
  constructor
  · intro q hq p hp
    have h1 := deepCopy_fresh heap A q hq
    have h2 := hA p hp
    simp [sharesBuffer]
    omega
  · intro q hq p hp vals
    have h1 := deepCopy_fresh heap A q hq
    have h2 := hA p hp
    rw [readView_mutate_ne _ _ _ _ (by omega)]
    exact readView_deepCopy heap A p.2 h2

/-- C5: for every `b = shallowCopy a`, `sharesBuffer a b` is false at top
level, `b`'s contents equal `a`'s contents at creation time, a later
mutation of the elements of either handle does not affect the other's
elements, and the shallow copy of a composite structure still shares each
nested handle's Buffer with the source. -/
theorem shallowCopy_independence (heap : Heap) (a : Handle)
    (hbuf : a.buf < heap.length) :
    sharesBuffer a (shallowCopy heap a).2 = false ∧
    readView (shallowCopy heap a).1 (shallowCopy heap a).2 = readView heap a ∧
    (∀ vals : Values,
      readView (mutateInPlace (shallowCopy heap a).1 a vals).1
          (shallowCopy heap a).2 =
        readView (shallowCopy heap a).1 (shallowCopy heap a).2) ∧
    (∀ vals : Values,
      readView (mutateInPlace (shallowCopy heap a).1
          (shallowCopy heap a).2 vals).1 a =
        readView (shallowCopy heap a).1 a) ∧
    (∀ (A : Composite) (i : Nat), i < A.length →
      ∃ p q, (shallowCopyComposite A)[i]? = some p ∧ A[i]? = some q ∧
        sharesBuffer p.2 q.2 = true) := by
  have hne : a.buf ≠ (shallowCopy heap a).2.buf := by
    show a.buf ≠ heap.length
    omega
  refine ⟨shallowCopy_not_shared heap a hbuf,
    shallowCopy_contents heap a hbuf, ?_, ?_, ?_⟩
  · intro vals
    exact readView_mutate_ne _ _ _ _ hne
  · intro vals
    exact readView_mutate_ne _ _ _ _ (Ne.symm hne)
  · intro A i hi
    refine ⟨A[i], A[i], ?_, List.getElem?_eq_getElem hi, ?_⟩
    · unfold shallowCopyComposite
      rw [List.getElem?_map, List.getElem?_eq_getElem hi]
      rfl
    · simp [sharesBuffer]

end ArrayModel

namespace ArrayModel

/-- C6: `slice` with any range exceeding the source's shape on some
dimension fails with `IndexOutOfRange`, produces no result handle, and
leaves the heap — hence the source Buffer and every previously created
handle — unmodified. -/
theorem slice_error_no_mutation (heap : Heap) (a : Handle)
    (r : List (Nat × Nat)) (d : Nat) (hd : d < r.length)
    (hd2 : d < a.view.length) (hex : (a.view[d]).2 < (r[d]).2) :
    (slice heap a r).2 = .error .IndexOutOfRange ∧
    (slice heap a r).1 = heap ∧
    (∀ h2 : Handle, readView (slice heap a r).1 h2 = readView heap h2) := by
  refine ⟨slice_out_of_range heap a r d hd hd2 hex,
    slice_heap_unchanged heap a r, ?_⟩
  intro h2
  rw [slice_heap_unchanged heap a r]

/-- C7: `elementwiseOp` applied to two array operands whose view shapes are
not broadcast-compatible fails with `ShapeMismatch` and produces no result
handle (the heap is unchanged); when the shapes are broadcast-compatible it
succeeds and returns a result handle. -/
theorem elementwiseOp_broadcast_check (op : Op) (heap : Heap)
    (a rh : Handle) :
    (broadcastCompat (viewShape a.view) (viewShape rh.view) = false →
      elementwiseOp op heap a (.arr rh) = (heap, .error .ShapeMismatch)) ∧
    (broadcastCompat (viewShape a.view) (viewShape rh.view) = true →
      ∃ b, (elementwiseOp op heap a (.arr rh)).2 = .ok b) := by
  constructor
  · intro hbad
    exact elementwiseOp_mismatch op heap a rh hbad
  · intro hc
    exact ⟨_, elementwiseOp_compat_ok op heap a rh hc⟩

/-- C8: `mutateInPlace target values` fails with `ShapeMismatch` (leaving
the heap unchanged) whenever the shape of an array of values differs from
the target view's shape; on success the new values are visible through
every handle aliasing the same Buffer region (same buffer, same view). -/
theorem mutateInPlace_shape_contract (heap : Heap) (t h2 : Handle)
    (d : List Int) (hsh : sharesBuffer t h2 = true) (hview : h2.view = t.view)
    (hbuf : t.buf < heap.length)
    (hb : viewInBounds ((heap.getD t.buf emptyBuf).shape) t.view = true)
    (hdlen : d.length = (viewShape t.view).prod)
    (hwf : (heap.getD t.buf emptyBuf).data.length =
      (heap.getD t.buf emptyBuf).shape.prod) :
    (∀ (H : Heap) (u : Handle) (s : List Nat) (e : List Int),
      s ≠ viewShape u.view →
      mutateInPlace H u (.arr s e) = (H, .error .ShapeMismatch)) ∧
    readView (mutateInPlace heap t (.arr (viewShape t.view) d)).1 h2 =
      some d := by
  constructor
  · intro H u s e hne
    apply mutateInPlace_mismatch
    simp [valuesShapeOk]
    exact hne
  · apply mutate_arr_visible heap t h2 d ?_ hview hbuf hb hdlen hwf
    simp [sharesBuffer] at hsh
    omega

/-- C9: when a view is mutated in place with a scalar fill, only the buffer
elements inside the region selected by the view change: every position
outside `writePositions` keeps its previous value, every in-range position
inside it takes the written value, and in the 4×4 demonstration writing 10
through the 2×2 corner view leaves rows 2–3 untouched. -/
theorem slice_mutation_frame (heap : Heap) (h : Handle) (s : Int) (p : Nat)
    (hbuf : h.buf < heap.length)
    (hout : p ∉ writePositions ((heap.getD h.buf emptyBuf).shape) h.view) :
    ((mutateInPlace heap h (.scalar s)).1.getD h.buf emptyBuf).data[p]? =
      (heap.getD h.buf emptyBuf).data[p]? ∧
    (∀ q ∈ writePositions ((heap.getD h.buf emptyBuf).shape) h.view,
      q < (heap.getD h.buf emptyBuf).data.length →
      ((mutateInPlace heap h (.scalar s)).1.getD h.buf emptyBuf).data[q]? =
        some s) ∧
    readView (mutateInPlace gridHeap ⟨0, [(0, 2), (0, 2)]⟩ (.scalar 10)).1
        ⟨0, [(2, 2), (0, 4)]⟩ =
      some [8, 9, 10, 11, 12, 13, 14, 15] := by
  rw [mutateInPlace_scalar_eq]
  refine ⟨?_, ?_, rfl⟩
  · rw [getD_set_self heap h.buf _ hbuf]
    exact writeView_frame _ _ _ _ _ hout
  · intro q hq hqlen
    rw [getD_set_self heap h.buf _ hbuf]
    exact writeView_scalar_mem _ _ _ _ _ hqlen hq

/-- C10: for every live array handle `a`, `elementwiseOp add a 0` yields a
result whose contents are element-for-element equal to `a`'s contents at
creation time (adding zero is a value-level identity even though it
allocates a distinct Buffer), and `elementwiseOp add a 1` yields a result
whose i-th element is `a`'s i-th element plus 1. -/
theorem add_scalar_value_identity (heap : Heap) (a : Handle)
    (hbuf : a.buf < heap.length) :
    ∃ l b0 b1,
      readView heap a = some l ∧
      (elementwiseOp .add heap a (.scalar 0)).2 = .ok b0 ∧
      readView (elementwiseOp .add heap a (.scalar 0)).1 b0 = some l ∧
      (elementwiseOp .add heap a (.scalar 1)).2 = .ok b1 ∧
      readView (elementwiseOp .add heap a (.scalar 1)).1 b1 =
        some (l.map (fun e => e + 1)) := by
  refine ⟨viewData (heap.getD a.buf emptyBuf) a.view,
    ⟨heap.length, fullView (viewShape a.view)⟩,
    ⟨heap.length, fullView (viewShape a.view)⟩, ?_, rfl, ?_, rfl, ?_⟩
  · unfold readView
    rw [getElem?_eq_some_getD heap a.buf hbuf]
    rfl
  · rw [readView_scalar_result .add heap a 0 _ rfl]
    congr 1
    have : ∀ e : Int, applyOp .add e 0 = e := by
      intro e
      simp [applyOp]
    simp only [this]
    exact List.map_id _
  · rw [readView_scalar_result .add heap a 1 _ rfl]
    rfl

end ArrayModel

namespace ArrayModel

theorem bind_aliasing_demo :
    (∀ a : Handle, sharesBuffer a (bind a) = true) ∧
    (∀ (H : Heap) (a : Handle) (vals : Values),
      mutateInPlace H (bind a) vals = mutateInPlace H a vals) ∧
    (∃ l, readView (mutateInPlace demoHeap ⟨0, [(3, 1)]⟩ (.scalar 10)).1
        demoA = some l ∧ l[3]? = some 10) ∧
    (slice demoHeap (bind demoA) [(3, 4)]).2 = .ok ⟨0, [(3, 1)]⟩ ∧
    readView (mutateInPlace demoHeap ⟨0, [(3, 1)]⟩ (.scalar 10)).1 demoA =
      some [1, 2, 3, 10, 5] :=
  bind_aliasing demoHeap ⟨0, [(3, 1)]⟩ demoA 10 3 (by decide) (by decide)
    (by decide) (by decide) (by decide)

theorem slice_view_aliasing_demo :
    sharesBuffer gridA ⟨0, [(0, 2), (0, 2)]⟩ = true ∧
    (slice gridHeap gridA [(0, 2), (0, 2)]).1 = gridHeap ∧
    (slice gridHeap gridA [(0, 2), (0, 2)]).2 = .ok ⟨0, [(0, 2), (0, 2)]⟩ ∧
    readView (mutateInPlace gridHeap ⟨0, [(0, 2), (0, 2)]⟩ (.scalar 10)).1
        gridA =
      some [10, 10, 2, 3, 10, 10, 6, 7, 8, 9, 10, 11, 12, 13, 14, 15] :=
  slice_view_aliasing gridHeap gridA [(0, 2), (0, 2)] ⟨0, [(0, 2), (0, 2)]⟩
    rfl

theorem elementwiseOp_fresh_buffer_demo :
    sharesBuffer demoA ⟨1, [(0, 5)]⟩ = false ∧
    (⟨1, [(0, 5)]⟩ : Handle).buf = demoHeap.length ∧
    (∀ vals : Values,
      readView (mutateInPlace
          (elementwiseOp .add demoHeap demoA (.scalar 0)).1
          ⟨1, [(0, 5)]⟩ vals).1 demoA =
        readView demoHeap demoA) ∧
    (elementwiseOp .add demoHeap demoA (.scalar 0)).2 = .ok ⟨1, [(0, 5)]⟩ ∧
    readView (mutateInPlace (elementwiseOp .add demoHeap demoA (.scalar 0)).1
        ⟨1, [(3, 1)]⟩ (.scalar 10)).1 demoA = some [1, 2, 3, 4, 5] ∧
    readView (mutateInPlace (elementwiseOp .add demoHeap demoA (.scalar 0)).1
        ⟨1, [(3, 1)]⟩ (.scalar 10)).1 ⟨1, [(0, 5)]⟩ =
      some [1, 2, 3, 10, 5] :=
  elementwiseOp_fresh_buffer .add demoHeap demoA (.scalar 0) ⟨1, [(0, 5)]⟩
    (by decide) rfl

theorem deepCopy_independence_demo :
    (∀ q ∈ (deepCopy compHeap compA).2, ∀ p ∈ compA,
      sharesBuffer p.2 q.2 = false) ∧
    (∀ q ∈ (deepCopy compHeap compA).2, ∀ p ∈ compA, ∀ vals : Values,
      readView (mutateInPlace (deepCopy compHeap compA).1 q.2 vals).1 p.2 =
        readView compHeap p.2) :=
  deepCopy_independence compHeap compA (by decide)

theorem shallowCopy_independence_demo :
    sharesBuffer demoA (shallowCopy demoHeap demoA).2 = false ∧
    readView (shallowCopy demoHeap demoA).1 (shallowCopy demoHeap demoA).2 =
      readView demoHeap demoA ∧
    (∀ vals : Values,
      readView (mutateInPlace (shallowCopy demoHeap demoA).1 demoA vals).1
          (shallowCopy demoHeap demoA).2 =
        readView (shallowCopy demoHeap demoA).1
          (shallowCopy demoHeap demoA).2) ∧
    (∀ vals : Values,
      readView (mutateInPlace (shallowCopy demoHeap demoA).1
          (shallowCopy demoHeap demoA).2 vals).1 demoA =
        readView (shallowCopy demoHeap demoA).1 demoA) ∧
    (∀ (A : Composite) (i : Nat), i < A.length →
      ∃ p q, (shallowCopyComposite A)[i]? = some p ∧ A[i]? = some q ∧
        sharesBuffer p.2 q.2 = true) :=
  shallowCopy_independence demoHeap demoA (by decide)

theorem slice_error_no_mutation_demo :
    (slice demoHeap demoA [(0, 6)]).2 = .error .IndexOutOfRange ∧
    (slice demoHeap demoA [(0, 6)]).1 = demoHeap ∧
    (∀ h2 : Handle,
      readView (slice demoHeap demoA [(0, 6)]).1 h2 = readView demoHeap h2) :=
  slice_error_no_mutation demoHeap demoA [(0, 6)] 0 (by decide) (by decide)
    (by decide)

theorem elementwiseOp_broadcast_check_demo :
    elementwiseOp .multiply gridHeap gridA (.arr ⟨1, [(0, 3), (0, 3)]⟩) =
      (gridHeap, .error .ShapeMismatch) ∧
    ∃ b, (elementwiseOp .multiply gridHeap gridA
        (.arr ⟨0, [(0, 4), (0, 4)]⟩)).2 = .ok b :=
  ⟨(elementwiseOp_broadcast_check .multiply gridHeap gridA
      ⟨1, [(0, 3), (0, 3)]⟩).1 (by decide),
   (elementwiseOp_broadcast_check .multiply gridHeap gridA
      ⟨0, [(0, 4), (0, 4)]⟩).2 (by decide)⟩

theorem mutateInPlace_shape_contract_demo :
    (∀ (H : Heap) (u : Handle) (s : List Nat) (e : List Int),
      s ≠ viewShape u.view →
      mutateInPlace H u (.arr s e) = (H, .error .ShapeMismatch)) ∧
    readView (mutateInPlace gridHeap ⟨0, [(0, 2), (0, 2)]⟩
        (.arr (viewShape (Handle.view ⟨0, [(0, 2), (0, 2)]⟩))
          [10, 10, 10, 10])).1 ⟨0, [(0, 2), (0, 2)]⟩ =
      some [10, 10, 10, 10] :=
  mutateInPlace_shape_contract gridHeap ⟨0, [(0, 2), (0, 2)]⟩
    ⟨0, [(0, 2), (0, 2)]⟩ [10, 10, 10, 10] (by decide) (by decide) (by decide)
    (by decide) (by decide) (by decide)

theorem slice_mutation_frame_demo :
    ((mutateInPlace gridHeap ⟨0, [(0, 2), (0, 2)]⟩ (.scalar 10)).1.getD 0
        emptyBuf).data[2]? =
      (gridHeap.getD 0 emptyBuf).data[2]? ∧
    (∀ q ∈ writePositions ((gridHeap.getD 0 emptyBuf).shape)
        [(0, 2), (0, 2)],
      q < (gridHeap.getD 0 emptyBuf).data.length →
      ((mutateInPlace gridHeap ⟨0, [(0, 2), (0, 2)]⟩ (.scalar 10)).1.getD 0
          emptyBuf).data[q]? = some 10) ∧
    readView (mutateInPlace gridHeap ⟨0, [(0, 2), (0, 2)]⟩ (.scalar 10)).1
        ⟨0, [(2, 2), (0, 4)]⟩ =
      some [8, 9, 10, 11, 12, 13, 14, 15] :=
  slice_mutation_frame gridHeap ⟨0, [(0, 2), (0, 2)]⟩ 10 2 (by decide)
    (by decide)

theorem add_scalar_value_identity_demo :
    ∃ l b0 b1,
      readView demoHeap demoA = some l ∧
      (elementwiseOp .add demoHeap demoA (.scalar 0)).2 = .ok b0 ∧
      readView (elementwiseOp .add demoHeap demoA (.scalar 0)).1 b0 =
        some l ∧
      (elementwiseOp .add demoHeap demoA (.scalar 1)).2 = .ok b1 ∧
      readView (elementwiseOp .add demoHeap demoA (.scalar 1)).1 b1 =
        some (l.map (fun e => e + 1)) :=
  add_scalar_value_identity demoHeap demoA (by decide)

end ArrayModel
